import Mathlib

/-!
Verification of the `ai_detecter` analysis pipeline.

The development shallowly embeds the Python sources `ai_detector.py` and
`webapp.py`.  Text is represented as `List Char`, Python floats as exact
rationals `ℚ`, and the fallible external classification capability (the
Hugging Face pipeline obtained by `_load_detector_pipe`) as a function
`Classifier : List Char → Except String LabelScore`: a raised exception is an
`Except.error` carrying the exception's message, a successful per-input
classification is `Except.ok` of its label string and confidence score.
-/

/-- The whitespace class of Python's `str.strip` and of `\s` in `re.split`
(ASCII: space, tab, newline, carriage return, vertical tab, form feed). -/
def isWSChar (c : Char) : Bool :=
  c == ' ' || c == '\t' || c == '\n' || c == '\r' ||
    c == Char.ofNat 11 || c == Char.ofNat 12

/-- Terminal sentence punctuation, the lookbehind class `[.!?]` of the
`re.split(r'(?<=[.!?])\s+', text)` call in `_split_sentences`. -/
def isTermChar (c : Char) : Bool :=
  c == '.' || c == '!' || c == '?'

/-- Whether a character list starts with a whitespace character. -/
def headWS : List Char → Bool
  | [] => false
  | c :: _ => isWSChar c

/-- Prepend a character to the first fragment of a fragment list. -/
def consHead (c : Char) : List (List Char) → List (List Char)
  | [] => [[c]]
  | f :: fs => (c :: f) :: fs

/-- Scanner state for the regex split of `_split_sentences`: either scanning a
fragment (recording whether the previous character was terminal punctuation),
or greedily skipping the whitespace characters of a separator run. -/
inductive SentMode where
  | scan (prevTerm : Bool)
  | skip
deriving DecidableEq

/-- The raw fragments of `re.split(r'(?<=[.!?])\s+', text)`: scanning left to
right, a separator is a maximal whitespace run whose immediately preceding
character is terminal punctuation; the separator run is consumed greedily
(`skip` mode) and ends the current fragment. -/
def sentSplitRaw : SentMode → List Char → List (List Char)
  | _, [] => [[]]
  | .scan p, c :: rest =>
    if p = true ∧ isWSChar c = true then
      [] :: sentSplitRaw .skip rest
    else
      consHead c (sentSplitRaw (.scan (isTermChar c)) rest)
  | .skip, c :: rest =>
    if isWSChar c = true then
      sentSplitRaw .skip rest
    else
      consHead c (sentSplitRaw (.scan (isTermChar c)) rest)

/-- `rstrip`: drop trailing whitespace (the right half of Python `strip`). -/
def rstrip : List Char → List Char
  | [] => []
  | c :: rest =>
    let r := rstrip rest
    if r = [] ∧ isWSChar c = true then [] else c :: r

/-- Python `str.strip()`: drop leading and trailing whitespace. -/
def pyStrip (s : List Char) : List Char :=
  rstrip (s.dropWhile (fun ch => isWSChar ch))

/-- `_split_sentences`: regex split, then strip each fragment and keep the
non-empty ones (`[s.strip() for s in re.split(...) if s.strip()]`). -/
def split_sentences (text : List Char) : List (List Char) :=
  ((sentSplitRaw (.scan false) text).map pyStrip).filter (fun s => s ≠ [])

/-- The fragments of Python `text.split('\n\n')`: leftmost, non-overlapping
occurrences of two consecutive line breaks are separators. -/
def splitNN : List Char → List (List Char)
  | [] => [[]]
  | [c] => [[c]]
  | c :: d :: rest =>
    if c = '\n' ∧ d = '\n' then [] :: splitNN rest
    else consHead c (splitNN (d :: rest))

/-- `_paragraphs_from_text`: split on blank lines, strip each fragment, keep
the non-empty ones (`[p.strip() for p in text.split('\n\n') if p.strip()]`). -/
def paragraphs_from_text (text : List Char) : List (List Char) :=
  ((splitNN text).map pyStrip).filter (fun s => s ≠ [])

instance {ε α : Type} [DecidableEq ε] [DecidableEq α] :
    DecidableEq (Except ε α) := fun a b =>
  match a, b with
  | .ok x, .ok y => if h : x = y then .isTrue (by rw [h]) else .isFalse (by simp [h])
  | .error x, .error y => if h : x = y then .isTrue (by rw [h]) else .isFalse (by simp [h])
  | .ok _, .error _ => .isFalse (by simp)
  | .error _, .ok _ => .isFalse (by simp)

/-- A raw per-input answer of the classification capability: the native label
string (`'Real'` or `'Fake'` for this model) and a confidence in `[0,1]`. -/
structure LabelScore where
  label : String
  score : ℚ
deriving DecidableEq, Repr

/-- The external classification capability, per input string.  An exception
raised while loading the pipeline or classifying is `Except.error` with the
exception's message. -/
def Classifier : Type := List Char → Except String LabelScore

/-- One element of the `pipe(sentences, truncation=True, max_length=512)`
batch call: inputs are classified left to right, one result per input, and a
failure mid-call aborts the whole call with that failure. -/
def pipeBatch (clf : Classifier) : List (List Char) → Except String (List LabelScore)
  | [] => .ok []
  | s :: rest =>
    match clf s with
    | .error e => .error e
    | .ok r =>
      match pipeBatch clf rest with
      | .error e => .error e
      | .ok rs => .ok (r :: rs)

/-- One entry of the per-sentence result list built by `analyze_sentences`. -/
structure SentenceResult where
  sentence : List Char
  label : String
  score : ℚ
  originality : ℚ
deriving DecidableEq, Repr

/-- The dict returned by `analyze_text`. -/
structure AnalysisResult where
  label : String
  score : ℚ
  originality : ℚ
  text : List Char
  sentences : List SentenceResult
  paragraphs : List (List Char)
deriving DecidableEq, Repr

/-- `analyze_sentences(text)`: split into sentences; an empty list yields
`[]` with no classification call; otherwise one batched call, zipping results
with the sentences by index (`sentences[idx]` for `idx, result` in
`enumerate(results)`, the two lists having equal length). -/
def analyze_sentences (clf : Classifier) (text : List Char) :
    Except String (List SentenceResult) :=
  let sentences := split_sentences text
  if sentences = [] then .ok []
  else
    match pipeBatch clf sentences with
    | .error e => .error e
    | .ok results =>
      .ok ((sentences.zip results).map (fun sr =>
        { sentence := sr.1
          label := sr.2.label
          score := sr.2.score * 100
          originality := 100 - sr.2.score * 100 }))

/-- `analyze_text(text)`: document-level classification (`result[0]` of the
single-input pipeline call), then the per-sentence analysis and the paragraph
segmentation; any classification failure propagates unchanged. -/
def analyze_text (clf : Classifier) (text : List Char) :
    Except String AnalysisResult :=
  match clf text with
  | .error e => .error e
  | .ok r =>
    match analyze_sentences clf text with
    | .error e => .error e
    | .ok sents =>
      .ok { label := r.label
            score := r.score * 100
            originality := 100 - r.score * 100
            text := text
            sentences := sents
            paragraphs := paragraphs_from_text text }

/-- The coarse "likely source" tier of the report renderers. -/
inductive Tier where
  | top      -- "High probability of GPT-4 or Claude (Very structured)"
  | mid      -- "ChatGPT (GPT-3.5) or Gemini"
  | basic    -- "Basic AI tool or Paraphrasing tool"
  | human    -- the human-written statement, no source line
deriving DecidableEq, Repr

/-- The printed `f"{score:.2f}"` value: `score` rounded to two decimals. -/
def printed_confidence (score : ℚ) : ℚ :=
  (round (score * 100) : ℤ) / 100

/-- What the console summary of `detect_ai_content` prints: whether the AI
alert is shown, the two-decimal confidence, and the likely-source tier.  The
code branches on `label == 'Fake'` first and only then compares `score`
against the fixed thresholds 98 and 90; for any other label it prints the
human-written statement and no source line. -/
structure ConsoleSummary where
  aiAlert : Bool
  confidence : ℚ
  tier : Tier
deriving DecidableEq, Repr

/-- The console summary selection logic of `detect_ai_content`. -/
def detect_summary (label : String) (score : ℚ) : ConsoleSummary :=
  if label = "Fake" then
    { aiAlert := true
      confidence := printed_confidence score
      tier := if score > 98 then .top else if score > 90 then .mid else .basic }
  else
    { aiAlert := false
      confidence := printed_confidence score
      tier := .human }

/-- The interpretation tier of the web page `TEMPLATE` in `webapp.py`:
`score > 98` → top, `elif score > 90` → mid, `elif label == 'Fake'` → basic,
else the human-written statement.  This pure-threshold-first ordering is also
the ordering the specification ascribes to the console summary. -/
def template_tier (label : String) (score : ℚ) : Tier :=
  if score > 98 then .top
  else if score > 90 then .mid
  else if label = "Fake" then .basic
  else .human

/-- A4 page height in points (297 mm at 72 points per inch), the
`page_height` taken from `reportlab.lib.pagesizes.A4` in `_create_pdf_report`;
`297 * 72 / 25.4 = 106920 / 127`. -/
def pageHeight : ℚ := 106920 / 127

/-- The fixed `margin = 40` of `_create_pdf_report`. -/
def reportMargin : ℚ := 40

/-- The vertical cursor when the wrapped-text loop of `_create_pdf_report`
starts: the page top `page_height - margin`, minus the decrements 30, 16, 24
and 18 taken after the title, result, confidence and section-header lines. -/
def textStartY : ℚ := pageHeight - reportMargin - 30 - 16 - 24 - 18

/-- The wrapped-text loop of `_create_pdf_report`: for each wrapped line, if
the cursor is below `margin + 20` emit a page break (`c.showPage()`) and reset
the cursor to the page top, then draw the line at the cursor and move down 14
points.  Returns the `(y, line)` pairs actually drawn and the number of page
breaks emitted. -/
def drawWrapped (y : ℚ) (breaks : ℕ) : List String → List (ℚ × String) × ℕ
  | [] => ([], breaks)
  | line :: rest =>
    if y < reportMargin + 20 then
      let out := drawWrapped (pageHeight - reportMargin - 14) (breaks + 1) rest
      ((pageHeight - reportMargin, line) :: out.1, out.2)
    else
      let out := drawWrapped (y - 14) breaks rest
      ((y, line) :: out.1, out.2)

/-- The `(y, line)` pairs at which `_create_pdf_report` draws the wrapped
lines of the analyzed text. -/
def pdfDrawn (lines : List String) : List (ℚ × String) :=
  (drawWrapped textStartY 0 lines).1

/-- The number of pages of the finished report: every `c.showPage()` call
finishes one page — the breaks emitted inside the wrapped-text loop plus the
final `c.showPage()` before `c.save()`. -/
def pdfPages (lines : List String) : ℕ :=
  (drawWrapped textStartY 0 lines).2 + 1

/-- `'\n'.join(...)`: join fragments with a single line break. -/
def joinNL : List (List Char) → List Char
  | [] => []
  | [p] => p
  | p :: q :: ps => p ++ '\n' :: joinNL (q :: ps)

/-- `_text_from_document`: the document's paragraph texts whose strip is
non-empty, joined with a single `'\n'` (`'\n'.join(paragraphs)`).  A Word
document is represented by the list of its paragraphs' texts. -/
def text_from_document (paras : List (List Char)) : List Char :=
  joinNL (paras.filter (fun p => pyStrip p ≠ []))

/-- `text.split('\n\n')` produces a fragment containing two consecutive line
breaks never; this predicate detects such a pair. -/
def hasNN : List Char → Bool
  | [] => false
  | [_] => false
  | c :: d :: rest => (c = '\n' ∧ d = '\n') || hasNN (d :: rest)

/-- Whether some terminal punctuation character is immediately followed by a
whitespace character — the sentence-boundary pattern of `_split_sentences`. -/
def hasSentBoundary : List Char → Bool
  | [] => false
  | [_] => false
  | c :: d :: rest => (isTermChar c && isWSChar d) || hasSentBoundary (d :: rest)

-- stub classifiers used by the concrete scenarios below
def stubFake : Classifier := fun _ => .ok { label := "Fake", score := 995 / 1000 }
def stubReal : Classifier := fun _ => .ok { label := "Real", score := 1 / 10 }
def stubDown : Classifier := fun _ => .error "model unavailable"

/-- A classifier that succeeds except on the single input `Bye!`, to exercise
a failure in the middle of a batched sentence call. -/
def stubFlaky : Classifier := fun s =>
  if s = "Bye!".data then .error "GPU out of memory"
  else .ok { label := "Fake", score := 1 / 2 }

/-- Modelled from the spec: the `{Human, AI}` enum mapping the specification
claims the core applies to the capability's native label strings (`'Real'` is
the human class, `'Fake'` the AI class).  The code has no such mapping; this
definition exists only to compare the claim with the code's behaviour. -/
def specLabelMap (l : String) : String :=
  if l = "Real" then "Human" else if l = "Fake" then "AI" else l

/-- The number of wrapped lines the first report page holds: the loop starts
at `textStartY = 106920/127 - 128` and moves down 14 points per line, and a
line is drawn on the first page while the cursor is at least `margin + 20 =
60`; `textStartY - 14 * k < 60` first holds at `k = 47`. -/
def firstPageLineBudget : ℕ := 47

/-- The analysis of the text `Hi.` under `stubFake`, computed once and shared
by the concrete scenarios: `0.995 * 100 = 199/2` and `100 - 199/2 = 1/2`. -/
def stubA : AnalysisResult :=
  { label := "Fake", score := 199 / 2, originality := 1 / 2, text := "Hi.".data,
    sentences := [{ sentence := "Hi.".data, label := "Fake", score := 199 / 2,
                    originality := 1 / 2 }],
    paragraphs := ["Hi.".data] }

-- sanity checks of the embedding on concrete inputs
example : split_sentences "Hi. There you go!  Ok".data = ["Hi.".data, "There you go!".data, "Ok".data] := by decide
example : split_sentences "".data = [] := by decide
example : split_sentences "  \n ".data = [] := by decide
example : split_sentences "no punctuation here".data = ["no punctuation here".data] := by decide
example : split_sentences " pad.  ".data = ["pad.".data] := by decide
example : splitNN "a\n\n\nb".data = ["a".data, "\nb".data] := by decide
example : paragraphs_from_text "one\n\ntwo\n\n\n".data = ["one".data, "two".data] := by decide
example : pyStrip "  a b \t".data = "a b".data := by decide
example :
    analyze_text stubFake "Hi there. Bye!".data =
      .ok { label := "Fake", score := 995 / 10, originality := 1 / 2,
            text := "Hi there. Bye!".data,
            sentences :=
              [{ sentence := "Hi there.".data, label := "Fake", score := 995 / 10,
                 originality := 1 / 2 },
               { sentence := "Bye!".data, label := "Fake", score := 995 / 10,
                 originality := 1 / 2 }],
            paragraphs := ["Hi there. Bye!".data] } := by
  have hs : split_sentences "Hi there. Bye!".data = ["Hi there.".data, "Bye!".data] := by decide
  have hp : paragraphs_from_text "Hi there. Bye!".data = ["Hi there. Bye!".data] := by decide
  simp [analyze_text, analyze_sentences, stubFake, pipeBatch, hs, hp]
  norm_num
example : analyze_text stubDown "Hi.".data = .error "model unavailable" := by
  simp [analyze_text, stubDown]
example : (detect_summary "Fake" (995 / 10)).tier = Tier.top := by
  norm_num [detect_summary]
example : (detect_summary "Real" (995 / 10)).tier = Tier.human := by
  norm_num [detect_summary, show ("Real" : String) ≠ "Fake" by decide]
example : template_tier "Real" (995 / 10) = Tier.top := by
  norm_num [template_tier]
example : text_from_document ["Hello ".data, "  ".data, "World".data] = "Hello \nWorld".data := by decide
example : pdfPages ["a", "b"] = 1 := by
  norm_num [pdfPages, drawWrapped, textStartY, pageHeight, reportMargin]

/-! ### Lemmas about stripping -/

theorem isWSChar_of_isTermChar {c : Char} (h : isTermChar c = true) :
    isWSChar c = false := by
  simp only [isTermChar, Bool.or_eq_true, beq_iff_eq] at h
  rcases h with (h | h) | h <;> subst h <;> decide

theorem isTermChar_of_isWSChar {c : Char} (h : isWSChar c = true) :
    isTermChar c = false := by
  simp only [isWSChar, Bool.or_eq_true, beq_iff_eq] at h
  rcases h with ((((h | h) | h) | h) | h) | h <;> subst h <;> decide

theorem rstrip_eq_nil_iff {s : List Char} :
    rstrip s = [] ↔ ∀ c ∈ s, isWSChar c = true := by
  induction s with
  | nil => simp [rstrip]
  | cons c rest ih =>
    simp only [rstrip, List.mem_cons]
    constructor
    · intro h
      by_cases hc : rstrip rest = [] ∧ isWSChar c = true
      · intro x hx
        rcases hx with rfl | hx
        · exact hc.2
        · exact ih.mp hc.1 x hx
      · rw [if_neg hc] at h
        exact absurd h (List.cons_ne_nil _ _)
    · intro h
      rw [if_pos ⟨ih.mpr (fun x hx => h x (Or.inr hx)), h c (Or.inl rfl)⟩]

theorem pyStrip_eq_nil_iff {s : List Char} :
    pyStrip s = [] ↔ ∀ c ∈ s, isWSChar c = true := by
  unfold pyStrip
  rw [rstrip_eq_nil_iff]
  constructor
  · intro h c hc
    rw [← List.takeWhile_append_dropWhile (p := fun ch => isWSChar ch) (l := s),
      List.mem_append] at hc
    rcases hc with hc | hc
    · exact List.mem_takeWhile_imp hc
    · exact h c hc
  · intro h x hx
    exact h x ((List.dropWhile_sublist _).mem hx)

theorem pyStrip_ne_nil {s : List Char} {c : Char} (hc : c ∈ s)
    (hw : isWSChar c = false) : pyStrip s ≠ [] := by
  intro h
  rw [pyStrip_eq_nil_iff] at h
  rw [h c hc] at hw
  simp at hw

/-- `rstrip s` is an initial segment of `s`. -/
theorem rstrip_decomp : ∀ s : List Char, ∃ u, s = rstrip s ++ u
  | [] => ⟨[], rfl⟩
  | c :: rest => by
    obtain ⟨u, hu⟩ := rstrip_decomp rest
    simp only [rstrip]
    by_cases h : rstrip rest = [] ∧ isWSChar c = true
    · exact ⟨c :: rest, by rw [if_pos h]; rfl⟩
    · exact ⟨u, by rw [if_neg h, List.cons_append, ← hu]⟩

theorem rstrip_head : ∀ s : List Char, rstrip s = [] ∨ (rstrip s).head? = s.head?
  | [] => Or.inl rfl
  | c :: rest => by
    simp only [rstrip]
    by_cases h : rstrip rest = [] ∧ isWSChar c = true
    · exact Or.inl (if_pos h)
    · rw [if_neg h]
      exact Or.inr rfl

theorem rstrip_idem : ∀ s : List Char, rstrip (rstrip s) = rstrip s
  | [] => rfl
  | c :: rest => by
    simp only [rstrip]
    by_cases h : rstrip rest = [] ∧ isWSChar c = true
    · rw [if_pos h]
      rfl
    · rw [if_neg h]
      simp only [rstrip, rstrip_idem rest]
      rw [if_neg h]

theorem dropWhileWS_head {s : List Char} :
    headWS (s.dropWhile (fun ch => isWSChar ch)) = false := by
  induction s with
  | nil => rfl
  | cons c rest ih =>
    by_cases h : isWSChar c = true
    · simpa [List.dropWhile_cons, h] using ih
    · simp [List.dropWhile_cons, headWS, h]

theorem dropWhileWS_of_headWS {s : List Char} (h : headWS s = false) :
    s.dropWhile (fun ch => isWSChar ch) = s := by
  cases s with
  | nil => rfl
  | cons c rest => simp [headWS] at h; simp [List.dropWhile_cons, h]

theorem pyStrip_idem (s : List Char) : pyStrip (pyStrip s) = pyStrip s := by
  unfold pyStrip
  have h1 : headWS (rstrip (s.dropWhile (fun ch => isWSChar ch))) = false := by
    rcases rstrip_head (s.dropWhile (fun ch => isWSChar ch)) with h | h
    · rw [h]; rfl
    · cases hr : rstrip (s.dropWhile (fun ch => isWSChar ch)) with
      | nil => rfl
      | cons c rest =>
        rw [hr] at h
        cases hs : s.dropWhile (fun ch => isWSChar ch) with
        | nil => rw [hs] at h; exact absurd h (by simp)
        | cons d rest' =>
          rw [hs] at h
          simp only [List.head?_cons, Option.some_inj] at h
          have := dropWhileWS_head (s := s)
          rw [hs] at this
          simpa [headWS, h] using this
  rw [dropWhileWS_of_headWS h1, rstrip_idem]

/-! ### Step equations for the pattern-matching definitions -/

theorem splitNN_cons_cons (c d : Char) (rest : List Char) :
    splitNN (c :: d :: rest) =
      if c = '\n' ∧ d = '\n' then [] :: splitNN rest
      else consHead c (splitNN (d :: rest)) := rfl

theorem sentSplitRaw_scan_cons (p : Bool) (c : Char) (rest : List Char) :
    sentSplitRaw (.scan p) (c :: rest) =
      if p = true ∧ isWSChar c = true then [] :: sentSplitRaw .skip rest
      else consHead c (sentSplitRaw (.scan (isTermChar c)) rest) := rfl

theorem sentSplitRaw_skip_cons (c : Char) (rest : List Char) :
    sentSplitRaw .skip (c :: rest) =
      if isWSChar c = true then sentSplitRaw .skip rest
      else consHead c (sentSplitRaw (.scan (isTermChar c)) rest) := rfl

theorem hasNN_cons_cons (c d : Char) (rest : List Char) :
    hasNN (c :: d :: rest) =
      ((decide (c = '\n' ∧ d = '\n')) || hasNN (d :: rest)) := rfl

/-! ### Lemmas about sentence splitting -/

theorem hSB_cons {c : Char} {t : List Char} (h : hasSentBoundary (c :: t) = false) :
    hasSentBoundary t = false := by
  cases t with
  | nil => rfl
  | cons d rest =>
    simp only [hasSentBoundary, Bool.or_eq_false_iff] at h
    exact h.2

theorem hSB_pair {c d : Char} {t : List Char}
    (h : hasSentBoundary (c :: d :: t) = false) :
    (isTermChar c && isWSChar d) = false := by
  simp only [hasSentBoundary, Bool.or_eq_false_iff] at h
  exact h.1

theorem hSB_of_no_term {t : List Char} (h : ∀ c ∈ t, isTermChar c = false) :
    hasSentBoundary t = false := by
  induction t with
  | nil => rfl
  | cons c rest ih =>
    have hr := ih (fun x hx => h x (List.mem_cons_of_mem c hx))
    cases rest with
    | nil => rfl
    | cons d rest' =>
      simp only [hasSentBoundary, Bool.or_eq_false_iff]
      exact ⟨by simp [h c (List.mem_cons_self c _)], hr⟩

/-- A boundary-free text is a single regex-split fragment, provided the
scanner does not start in a state that would split at its first character. -/
theorem sentSplitRaw_noBoundary :
    ∀ (t : List Char) (p : Bool), hasSentBoundary t = false →
      (p = true → headWS t = false) →
      sentSplitRaw (.scan p) t = [t]
  | [], _, _, _ => rfl
  | c :: rest, p, h, hp => by
    have hc : ¬(p = true ∧ isWSChar c = true) := by
      rintro ⟨hp1, hw⟩
      have := hp hp1
      simp [headWS, hw] at this
    rw [sentSplitRaw_scan_cons, if_neg hc]
    have hrec := sentSplitRaw_noBoundary rest (isTermChar c) (hSB_cons h) ?_
    · rw [hrec]
      rfl
    · intro ht
      cases rest with
      | nil => rfl
      | cons d rest' =>
        have := hSB_pair h
        simp only [headWS]
        rw [ht] at this
        simpa using this

/-- Skipping consumes a whitespace run entirely. -/
theorem sentSkip_allWS :
    ∀ ws b : List Char, (∀ w ∈ ws, isWSChar w = true) →
      sentSplitRaw .skip (ws ++ b) = sentSplitRaw .skip b
  | [], _, _ => rfl
  | w :: ws', b, hws => by
    rw [List.cons_append, sentSplitRaw_skip_cons,
      if_pos (hws w (List.mem_cons_self w _))]
    exact sentSkip_allWS ws' b (fun x hx => hws x (List.mem_cons_of_mem w hx))

/-- After the separator run, skipping behaves like a fresh scan. -/
theorem sentSkip_nonWS {b : List Char} (h : headWS b = false) :
    sentSplitRaw .skip b = sentSplitRaw (.scan false) b := by
  cases b with
  | nil => rfl
  | cons c rest =>
    simp only [headWS] at h
    rw [sentSplitRaw_skip_cons, sentSplitRaw_scan_cons, if_neg (by simp [h]),
      if_neg (by simp [h])]

/-- The regex split separates exactly at a whitespace run that immediately
follows terminal punctuation: the boundary-free fragment `a ++ [c]` ending in
the terminal character `c` is cut off before the run `ws`, and scanning
resumes at `b`, the run being maximal (`b` does not start with whitespace). -/
theorem sentSplitRaw_peel :
    ∀ (a : List Char) (p : Bool) (c : Char) (ws b : List Char),
      hasSentBoundary (a ++ [c]) = false →
      (p = true → headWS (a ++ [c]) = false) →
      isTermChar c = true →
      ws ≠ [] → (∀ w ∈ ws, isWSChar w = true) →
      headWS b = false →
      sentSplitRaw (.scan p) ((a ++ [c]) ++ ws ++ b) =
        (a ++ [c]) :: sentSplitRaw (.scan false) b
  | [], p, c, ws, b, _, _, hc, hwsne, hws, hb => by
    show sentSplitRaw (.scan p) (c :: (ws ++ b)) = [c] :: sentSplitRaw (.scan false) b
    rw [sentSplitRaw_scan_cons,
      if_neg (by rw [isWSChar_of_isTermChar hc]; rintro ⟨-, h⟩; exact absurd h (by simp))]
    cases ws with
    | nil => exact absurd rfl hwsne
    | cons w ws' =>
      rw [List.cons_append, sentSplitRaw_scan_cons, hc,
        if_pos ⟨rfl, hws w (List.mem_cons_self w _)⟩,
        sentSkip_allWS ws' b (fun x hx => hws x (List.mem_cons_of_mem w hx)),
        sentSkip_nonWS hb]
      rfl
  | x :: a', p, c, ws, b, h, hp, hc, hwsne, hws, hb => by
    have hx : ¬(p = true ∧ isWSChar x = true) := by
      rintro ⟨hp1, hw⟩
      have := hp hp1
      simp [headWS, hw] at this
    have h1 : hasSentBoundary (a' ++ [c]) = false := hSB_cons h
    have h2 : isTermChar x = true → headWS (a' ++ [c]) = false := by
      intro ht
      cases ha' : a' with
      | nil => simp [headWS, isWSChar_of_isTermChar hc]
      | cons d a'' =>
        have hpair := hSB_pair (c := x) (d := d) (t := a'' ++ [c]) (by
          rw [ha'] at h
          simpa using h)
        rw [ht] at hpair
        simp only [headWS]
        simpa using hpair
    have ih := sentSplitRaw_peel a' (isTermChar x) c ws b h1 h2 hc hwsne hws hb
    show sentSplitRaw (.scan p) (x :: ((a' ++ [c]) ++ ws ++ b)) =
      (x :: (a' ++ [c])) :: sentSplitRaw (.scan false) b
    rw [sentSplitRaw_scan_cons, if_neg hx, ih]
    rfl

/-! ### `split_sentences` assembly -/

theorem split_sentences_noBoundary {t : List Char}
    (h : hasSentBoundary t = false) :
    split_sentences t = if pyStrip t = [] then [] else [pyStrip t] := by
  unfold split_sentences
  rw [sentSplitRaw_noBoundary t false h (by simp)]
  by_cases hs : pyStrip t = []
  · simp [hs]
  · simp [hs]

theorem split_sentences_no_term {t : List Char}
    (h : ∀ c ∈ t, isTermChar c = false) (hne : pyStrip t ≠ []) :
    split_sentences t = [pyStrip t] := by
  rw [split_sentences_noBoundary (hSB_of_no_term h), if_neg hne]

theorem split_sentences_allWS {t : List Char}
    (h : ∀ c ∈ t, isWSChar c = true) : split_sentences t = [] := by
  rw [split_sentences_noBoundary
    (hSB_of_no_term (fun c hc => isTermChar_of_isWSChar (h c hc))),
    if_pos (pyStrip_eq_nil_iff.mpr h)]

theorem split_sentences_peel {a : List Char} {c : Char} {ws b : List Char}
    (hnb : hasSentBoundary (a ++ [c]) = false) (hc : isTermChar c = true)
    (hwsne : ws ≠ []) (hws : ∀ w ∈ ws, isWSChar w = true)
    (hb : headWS b = false) :
    split_sentences ((a ++ [c]) ++ ws ++ b) =
      pyStrip (a ++ [c]) :: split_sentences b := by
  unfold split_sentences
  rw [sentSplitRaw_peel a false c ws b hnb (by simp) hc hwsne hws hb]
  have hne : pyStrip (a ++ [c]) ≠ [] :=
    pyStrip_ne_nil (c := c) (by simp) (isWSChar_of_isTermChar hc)
  simp [hne]

/-! ### Lemmas about blank-line splitting -/

theorem hasNN_cons {c : Char} {t : List Char} (h : hasNN (c :: t) = false) :
    hasNN t = false := by
  cases t with
  | nil => rfl
  | cons d rest =>
    simp only [hasNN, Bool.or_eq_false_iff] at h
    exact h.2

theorem hasNN_of_not_mem {t : List Char} (h : ('\n' : Char) ∉ t) :
    hasNN t = false := by
  induction t with
  | nil => rfl
  | cons c rest ih =>
    have hc : c ≠ '\n' := fun hc => h (hc ▸ List.mem_cons_self c rest)
    have hr : hasNN rest = false := ih (fun hm => h (List.mem_cons_of_mem c hm))
    cases rest with
    | nil => rfl
    | cons d rest' =>
      simp only [hasNN, Bool.or_eq_false_iff]
      exact ⟨by simp [hc], hr⟩

theorem hasNN_append {a b : List Char} (ha : hasNN a = false)
    (hb : hasNN b = false)
    (hj : a.getLast? = some '\n' → b.head? ≠ some '\n') :
    hasNN (a ++ b) = false := by
  induction a with
  | nil => simpa using hb
  | cons c a' ih =>
    cases a' with
    | nil =>
      cases b with
      | nil => rfl
      | cons d b' =>
        simp only [List.singleton_append, hasNN, Bool.or_eq_false_iff]
        refine ⟨?_, hb⟩
        by_cases hc : c = '\n'
        · have := hj (by simp [hc])
          simp only [List.head?_cons, ne_eq, Option.some_inj] at this
          simp [this]
        · simp [hc]
    | cons d a'' =>
      have h1 : hasNN (d :: a'') = false := hasNN_cons ha
      have h2 : ¬(c = '\n' ∧ d = '\n') := by
        simp only [hasNN_cons_cons, Bool.or_eq_false_iff,
          decide_eq_false_iff_not] at ha
        exact ha.1
      have h3 : (d :: a'').getLast? = some '\n' → b.head? ≠ some '\n' := fun hl =>
        hj (by rw [List.getLast?_cons_cons]; exact hl)
      have hrec := ih h1 h3
      show hasNN (c :: d :: (a'' ++ b)) = false
      rw [hasNN_cons_cons, Bool.or_eq_false_iff, decide_eq_false_iff_not]
      exact ⟨h2, by simpa using hrec⟩

theorem consHead_cons (c : Char) (g : List Char) (gs : List (List Char)) :
    consHead c (g :: gs) = (c :: g) :: gs := rfl

theorem splitNN_ne_nil : ∀ t : List Char, splitNN t ≠ []
  | [] => by simp [splitNN]
  | [c] => by simp [splitNN]
  | c :: d :: rest => by
    rw [splitNN_cons_cons]
    by_cases h : c = '\n' ∧ d = '\n'
    · simp [h]
    · rw [if_neg h]
      cases hL : splitNN (d :: rest) with
      | nil => exact absurd hL (splitNN_ne_nil (d :: rest))
      | cons g gs => simp [consHead_cons]

/-- The first `split('\n\n')` fragment is empty or starts like the text. -/
theorem splitNN_head : ∀ (t g : List Char) (gs : List (List Char)),
    splitNN t = g :: gs → g = [] ∨ g.head? = t.head?
  | [], g, gs, h => by
    simp only [splitNN, List.cons.injEq] at h
    exact Or.inl h.1.symm
  | [c], g, gs, h => by
    simp only [splitNN, List.cons.injEq] at h
    rw [← h.1]
    exact Or.inr rfl
  | c :: d :: rest, g, gs, h => by
    rw [splitNN_cons_cons] at h
    by_cases hc : c = '\n' ∧ d = '\n'
    · rw [if_pos hc] at h
      simp only [List.cons.injEq] at h
      exact Or.inl h.1.symm
    · rw [if_neg hc] at h
      cases hL : splitNN (d :: rest) with
      | nil => exact absurd hL (splitNN_ne_nil _)
      | cons g0 gs0 =>
        rw [hL, consHead_cons] at h
        simp only [List.cons.injEq] at h
        rw [← h.1]
        exact Or.inr rfl

/-- Every character of a `split('\n\n')` fragment is a character of the
text. -/
theorem splitNN_subset : ∀ (t f : List Char), f ∈ splitNN t → ∀ x ∈ f, x ∈ t
  | [], f, hf, x, hx => by
    simp only [splitNN, List.mem_singleton] at hf
    subst hf
    simp at hx
  | [c], f, hf, x, hx => by
    simp only [splitNN, List.mem_singleton] at hf
    subst hf
    exact hx
  | c :: d :: rest, f, hf, x, hx => by
    rw [splitNN_cons_cons] at hf
    by_cases h : c = '\n' ∧ d = '\n'
    · rw [if_pos h] at hf
      rcases List.mem_cons.mp hf with rfl | hf
      · simp at hx
      · have := splitNN_subset rest f hf x hx
        exact List.mem_cons_of_mem _ (List.mem_cons_of_mem _ this)
    · rw [if_neg h] at hf
      cases hL : splitNN (d :: rest) with
      | nil => exact absurd hL (splitNN_ne_nil _)
      | cons g gs =>
        rw [hL, consHead_cons] at hf
        rcases List.mem_cons.mp hf with rfl | hf
        · rcases List.mem_cons.mp hx with rfl | hx
          · exact List.mem_cons_self _ _
          · have := splitNN_subset (d :: rest) g
              (by rw [hL]; exact List.mem_cons_self _ _) x hx
            exact List.mem_cons_of_mem _ this
        · have := splitNN_subset (d :: rest) f
            (by rw [hL]; exact List.mem_cons_of_mem _ hf) x hx
          exact List.mem_cons_of_mem _ this

/-- No `split('\n\n')` fragment contains two consecutive line breaks: the
separators are matched leftmost-first. -/
theorem splitNN_frag_noNN : ∀ (t f : List Char), f ∈ splitNN t → hasNN f = false
  | [], f, hf => by
    simp only [splitNN, List.mem_singleton] at hf
    subst hf
    rfl
  | [c], f, hf => by
    simp only [splitNN, List.mem_singleton] at hf
    subst hf
    rfl
  | c :: d :: rest, f, hf => by
    rw [splitNN_cons_cons] at hf
    by_cases h : c = '\n' ∧ d = '\n'
    · rw [if_pos h] at hf
      rcases List.mem_cons.mp hf with rfl | hf
      · rfl
      · exact splitNN_frag_noNN rest f hf
    · rw [if_neg h] at hf
      cases hL : splitNN (d :: rest) with
      | nil => exact absurd hL (splitNN_ne_nil _)
      | cons g gs =>
        rw [hL, consHead_cons] at hf
        rcases List.mem_cons.mp hf with rfl | hf
        · have hg : hasNN g = false :=
            splitNN_frag_noNN (d :: rest) g (by rw [hL]; exact List.mem_cons_self _ _)
          cases g with
          | nil => rfl
          | cons y g' =>
            have hy : y = d := by
              rcases splitNN_head (d :: rest) (y :: g') gs hL with h0 | h0
              · exact absurd h0 (List.cons_ne_nil _ _)
              · simpa using h0
            rw [hasNN_cons_cons, Bool.or_eq_false_iff, decide_eq_false_iff_not]
            refine ⟨?_, hg⟩
            rintro ⟨hcn, hyn⟩
            exact h ⟨hcn, hy ▸ hyn⟩
        · exact splitNN_frag_noNN (d :: rest) f (by rw [hL]; exact List.mem_cons_of_mem _ hf)

/-- A text free of two consecutive line breaks is a single `split('\n\n')`
fragment. -/
theorem splitNN_noNN : ∀ t : List Char, hasNN t = false → splitNN t = [t]
  | [], _ => rfl
  | [c], _ => rfl
  | c :: d :: rest, h => by
    have h1 : ¬(c = '\n' ∧ d = '\n') := by
      simp only [hasNN, Bool.or_eq_false_iff, decide_eq_false_iff_not] at h
      exact h.1
    have h2 : hasNN (d :: rest) = false := hasNN_cons h
    simp only [splitNN, if_neg h1, splitNN_noNN (d :: rest) h2, consHead]

/-- `split('\n\n')` separates the two halves around a blank line, provided the
left half neither contains a blank line nor ends in a line break. -/
theorem splitNN_peel :
    ∀ p1 : List Char, ∀ p2 : List Char, hasNN p1 = false →
      p1.getLast? ≠ some '\n' →
      splitNN (p1 ++ '\n' :: '\n' :: p2) = p1 :: splitNN p2
  | [], p2, _, _ => by
    show splitNN ('\n' :: '\n' :: p2) = [] :: splitNN p2
    rw [splitNN_cons_cons, if_pos ⟨rfl, rfl⟩]
  | [c], p2, _, hl => by
    have hc : c ≠ '\n' := by simpa using hl
    show splitNN (c :: '\n' :: '\n' :: p2) = [c] :: splitNN p2
    rw [splitNN_cons_cons, if_neg (by simp [hc]),
      splitNN_cons_cons, if_pos ⟨rfl, rfl⟩]
    rfl
  | c :: d :: p1', p2, h, hl => by
    have h1 : ¬(c = '\n' ∧ d = '\n') := by
      simp only [hasNN_cons_cons, Bool.or_eq_false_iff,
        decide_eq_false_iff_not] at h
      exact h.1
    have h2 : hasNN (d :: p1') = false := hasNN_cons h
    have h3 : (d :: p1').getLast? ≠ some '\n' := by
      rwa [List.getLast?_cons_cons] at hl
    have ih := splitNN_peel (d :: p1') p2 h2 h3
    show splitNN (c :: d :: (p1' ++ '\n' :: '\n' :: p2)) = (c :: d :: p1') :: splitNN p2
    rw [splitNN_cons_cons, if_neg h1,
      show d :: (p1' ++ '\n' :: '\n' :: p2) = (d :: p1') ++ '\n' :: '\n' :: p2 from rfl,
      ih]
    rfl

theorem hasNN_append_left {a u : List Char} (h : hasNN (a ++ u) = false) :
    hasNN a = false := by
  induction a with
  | nil => rfl
  | cons c a' ih =>
    cases a' with
    | nil => rfl
    | cons d a'' =>
      simp only [List.cons_append] at h
      rw [hasNN_cons_cons, Bool.or_eq_false_iff] at h
      rw [hasNN_cons_cons, Bool.or_eq_false_iff]
      refine ⟨h.1, ih ?_⟩
      simpa using h.2

theorem hasNN_dropWhile {p : Char → Bool} {t : List Char}
    (h : hasNN t = false) : hasNN (t.dropWhile p) = false := by
  induction t with
  | nil => exact h
  | cons c rest ih =>
    rw [List.dropWhile_cons]
    by_cases hc : p c = true
    · simpa [hc] using ih (hasNN_cons h)
    · simpa [hc] using h

theorem hasNN_rstrip {t : List Char} (h : hasNN t = false) :
    hasNN (rstrip t) = false := by
  obtain ⟨u, hu⟩ := rstrip_decomp t
  rw [hu] at h
  exact hasNN_append_left h

theorem hasNN_pyStrip {t : List Char} (h : hasNN t = false) :
    hasNN (pyStrip t) = false :=
  hasNN_rstrip (hasNN_dropWhile h)

/-! ### Lemmas about `_paragraphs_from_text` -/

/-- Every element of the paragraphs list is trimmed, non-empty, and free of a
blank-line separator. -/
theorem paragraphs_mem {t p : List Char} (hp : p ∈ paragraphs_from_text t) :
    pyStrip p = p ∧ p ≠ [] ∧ hasNN p = false := by
  unfold paragraphs_from_text at hp
  have hp' := List.mem_filter.mp hp
  obtain ⟨f, hf, rfl⟩ := List.mem_map.mp hp'.1
  exact ⟨pyStrip_idem f, by simpa using hp'.2,
    hasNN_pyStrip (splitNN_frag_noNN t f hf)⟩

theorem paragraphs_allWS {t : List Char} (h : ∀ c ∈ t, isWSChar c = true) :
    paragraphs_from_text t = [] := by
  unfold paragraphs_from_text
  rw [List.filter_eq_nil_iff]
  intro f hf
  obtain ⟨g, hg, rfl⟩ := List.mem_map.mp hf
  have hgs : pyStrip g = [] :=
    pyStrip_eq_nil_iff.mpr (fun c hc => h c (splitNN_subset t g hg c hc))
  simp [hgs]

theorem paragraphs_noNN {t : List Char} (h : hasNN t = false) :
    paragraphs_from_text t = if pyStrip t = [] then [] else [pyStrip t] := by
  unfold paragraphs_from_text
  rw [splitNN_noNN t h]
  by_cases hs : pyStrip t = [] <;> simp [hs]

/-- Two paragraphs around one blank line, neither blank, the first not ending
in a line break: the paragraphs list is exactly the two trimmed halves. -/
theorem paragraphs_two {p1 p2 : List Char} (h1 : hasNN p1 = false)
    (h2 : hasNN p2 = false) (hl : p1.getLast? ≠ some '\n')
    (hs1 : pyStrip p1 ≠ []) (hs2 : pyStrip p2 ≠ []) :
    paragraphs_from_text (p1 ++ '\n' :: '\n' :: p2) = [pyStrip p1, pyStrip p2] := by
  unfold paragraphs_from_text
  rw [splitNN_peel p1 p2 h1 hl, splitNN_noNN p2 h2]
  simp [hs1, hs2]

/-! ### Lemmas about `'\n'.join` -/

theorem joinNL_head : ∀ (q : List Char) (ps : List (List Char)), q ≠ [] →
    (joinNL (q :: ps)).head? = q.head?
  | q, [], _ => rfl
  | [], p :: ps, hq => absurd rfl hq
  | c :: q', p :: ps, _ => by simp [joinNL]

theorem joinNL_decomp : ∀ (q : List Char) (ps : List (List Char)),
    ∃ u, joinNL (q :: ps) = q ++ u
  | q, [] => ⟨[], by simp [joinNL]⟩
  | q, p :: ps => ⟨'\n' :: joinNL (p :: ps), rfl⟩

theorem hasNN_joinNL : ∀ ps : List (List Char),
    (∀ p ∈ ps, ('\n' : Char) ∉ p) → (∀ p ∈ ps, p ≠ []) →
    hasNN (joinNL ps) = false
  | [], _, _ => rfl
  | [p], hmem, _ => hasNN_of_not_mem (hmem p (List.mem_singleton_self p))
  | p :: q :: ps, hmem, hne => by
    have hp : ('\n' : Char) ∉ p := hmem p (List.mem_cons_self _ _)
    have hrest := hasNN_joinNL (q :: ps)
      (fun x hx => hmem x (List.mem_cons_of_mem p hx))
      (fun x hx => hne x (List.mem_cons_of_mem p hx))
    have hq : q ≠ [] := hne q (List.mem_cons_of_mem p (List.mem_cons_self _ _))
    have hqn : ('\n' : Char) ∉ q := hmem q (List.mem_cons_of_mem p (List.mem_cons_self _ _))
    show hasNN (p ++ '\n' :: joinNL (q :: ps)) = false
    apply hasNN_append (hasNN_of_not_mem hp)
    · cases hj : joinNL (q :: ps) with
      | nil => rfl
      | cons x rest =>
        have hx : x ≠ '\n' := by
          have hh := joinNL_head q ps hq
          rw [hj] at hh
          cases q with
          | nil => exact absurd rfl hq
          | cons y q' =>
            simp only [List.head?_cons, Option.some_inj] at hh
            subst hh
            exact fun hx => hqn (hx ▸ List.mem_cons_self x q')
        rw [hj] at hrest
        rw [hasNN_cons_cons, Bool.or_eq_false_iff, decide_eq_false_iff_not]
        exact ⟨fun hand => hx hand.2, hrest⟩
    · intro hl
      obtain ⟨hne2, heq⟩ := List.mem_getLast?_eq_getLast (x := '\n') hl
      refine absurd ?_ hp
      rw [heq]
      exact List.getLast_mem hne2
example : pdfDrawn ["a"] = [(textStartY, "a")] := by norm_num [pdfDrawn, drawWrapped, textStartY, pageHeight, reportMargin]


/-! ### Lemmas about the classification calls -/

/-- The batch call yields one result per input, in order: a successful call
returns exactly the per-input classifications. -/
theorem pipeBatch_ok {clf : Classifier} :
    ∀ {ss : List (List Char)} {rs : List LabelScore},
      pipeBatch clf ss = .ok rs →
      rs.length = ss.length ∧
        ∀ (i : ℕ) (h1 : i < ss.length) (h2 : i < rs.length),
          clf (ss.get ⟨i, h1⟩) = .ok (rs.get ⟨i, h2⟩)
  | [], rs, h => by
    simp only [pipeBatch, Except.ok.injEq] at h
    subst h
    exact ⟨rfl, fun i h1 => by simp at h1⟩
  | s :: ss', rs, h => by
    simp only [pipeBatch] at h
    cases hcs : clf s with
    | error e => rw [hcs] at h; simp at h
    | ok r =>
      rw [hcs] at h
      cases hpb : pipeBatch clf ss' with
      | error e => rw [hpb] at h; simp at h
      | ok rs' =>
        rw [hpb] at h
        simp only [Except.ok.injEq] at h
        subst h
        obtain ⟨hlen, hget⟩ := pipeBatch_ok hpb
        refine ⟨by simp [hlen], ?_⟩
        intro i h1 h2
        cases i with
        | zero => simpa using hcs
        | succ n =>
          simpa using hget n (by simpa using h1) (by simpa using h2)

/-- Zipping a successful batch call's inputs with its results pairs every
input with its own classification. -/
theorem pipeBatch_zip_mem {clf : Classifier} :
    ∀ {ss : List (List Char)} {rs : List LabelScore},
      pipeBatch clf ss = .ok rs →
      ∀ pr ∈ ss.zip rs, clf pr.1 = .ok pr.2
  | [], _, _, pr, hpr => by simp at hpr
  | s :: ss', rs, h, pr, hpr => by
    simp only [pipeBatch] at h
    cases hcs : clf s with
    | error e => rw [hcs] at h; simp at h
    | ok r =>
      rw [hcs] at h
      cases hpb : pipeBatch clf ss' with
      | error e => rw [hpb] at h; simp at h
      | ok rs' =>
        rw [hpb] at h
        simp only [Except.ok.injEq] at h
        subst h
        rw [List.zip_cons_cons] at hpr
        rcases List.mem_cons.mp hpr with rfl | hpr
        · exact hcs
        · exact pipeBatch_zip_mem hpb pr hpr

/-- A successful batch call means the capability succeeded on every input. -/
theorem pipeBatch_ok_mem {clf : Classifier} :
    ∀ {ss : List (List Char)} {rs : List LabelScore},
      pipeBatch clf ss = .ok rs → ∀ s ∈ ss, ∃ r, clf s = .ok r
  | [], _, _, s, hs => by simp at hs
  | s0 :: ss', rs, h, s, hs => by
    simp only [pipeBatch] at h
    cases hcs : clf s0 with
    | error e => rw [hcs] at h; simp at h
    | ok r =>
      rw [hcs] at h
      cases hpb : pipeBatch clf ss' with
      | error e => rw [hpb] at h; simp at h
      | ok rs' =>
        rcases List.mem_cons.mp hs with rfl | hs
        · exact ⟨r, hcs⟩
        · exact pipeBatch_ok_mem hpb s hs

/-- The content of a successful `analyze_sentences` call: the entries carry
the sentence fragments in order, and each entry is the capability's answer
for its own sentence, the score scaled by 100 and the originality its
complement. -/
theorem analyze_sentences_ok {clf : Classifier} {t : List Char}
    {sents : List SentenceResult}
    (h : analyze_sentences clf t = .ok sents) :
    sents.map (fun sr => sr.sentence) = split_sentences t ∧
      ∀ sr ∈ sents, ∃ r, clf sr.sentence = .ok r ∧ sr.label = r.label ∧
        sr.score = r.score * 100 ∧ sr.originality = 100 - r.score * 100 := by
  unfold analyze_sentences at h
  by_cases hemp : split_sentences t = []
  · rw [if_pos hemp] at h
    simp only [Except.ok.injEq] at h
    subst h
    exact ⟨by simp [hemp], by simp⟩
  · rw [if_neg hemp] at h
    cases hpb : pipeBatch clf (split_sentences t) with
    | error e => rw [hpb] at h; simp at h
    | ok results =>
      rw [hpb] at h
      simp only [Except.ok.injEq] at h
      subst h
      obtain ⟨hlen, hget⟩ := pipeBatch_ok hpb
      constructor
      · rw [List.map_map]
        exact List.map_fst_zip _ _ (by rw [hlen])
      · intro sr hsr
        obtain ⟨pr, hpr, rfl⟩ := List.mem_map.mp hsr
        exact ⟨pr.2, pipeBatch_zip_mem hpb pr hpr, rfl, rfl, rfl⟩

/-- The content of a successful `analyze_text` call. -/
theorem analyze_text_ok {clf : Classifier} {t : List Char} {a : AnalysisResult}
    (h : analyze_text clf t = .ok a) :
    ∃ r, clf t = .ok r ∧ a.label = r.label ∧ a.score = r.score * 100 ∧
      a.originality = 100 - r.score * 100 ∧ a.text = t ∧
      analyze_sentences clf t = .ok a.sentences ∧
      a.paragraphs = paragraphs_from_text t := by
  unfold analyze_text at h
  cases hcs : clf t with
  | error e => rw [hcs] at h; simp at h
  | ok r =>
    rw [hcs] at h
    cases hsc : analyze_sentences clf t with
    | error e => rw [hsc] at h; simp at h
    | ok sents =>
      rw [hsc] at h
      simp only [Except.ok.injEq] at h
      subst h
      exact ⟨r, rfl, rfl, rfl, rfl, rfl, rfl, rfl⟩

/-- A failure of the document-level classification call propagates as-is. -/
theorem analyze_text_error_doc {clf : Classifier} {t : List Char} {e : String}
    (h : clf t = .error e) : analyze_text clf t = .error e := by
  unfold analyze_text
  rw [h]

/-- A failure of the batched sentence classification call propagates as-is. -/
theorem analyze_text_error_batch {clf : Classifier} {t : List Char}
    {e : String} {r : LabelScore} (hr : clf t = .ok r)
    (h : pipeBatch clf (split_sentences t) = .error e) :
    analyze_text clf t = .error e := by
  have hne : split_sentences t ≠ [] := by
    intro h0
    rw [h0] at h
    simp [pipeBatch] at h
  unfold analyze_text
  rw [hr]
  unfold analyze_sentences
  rw [if_neg hne, h]


/-! ### Lemmas about the paginated report -/

/-- Unfolding equation of the wrapped-text loop. -/
theorem drawWrapped_cons (y : ℚ) (b : ℕ) (line : String) (rest : List String) :
    drawWrapped y b (line :: rest) =
      if y < reportMargin + 20 then
        ((pageHeight - reportMargin, line) ::
            (drawWrapped (pageHeight - reportMargin - 14) (b + 1) rest).1,
          (drawWrapped (pageHeight - reportMargin - 14) (b + 1) rest).2)
      else
        ((y, line) :: (drawWrapped (y - 14) b rest).1,
          (drawWrapped (y - 14) b rest).2) := rfl

/-- Every wrapped line is drawn at or above `margin + 20`: lines whose cursor
fell below the threshold are drawn at the reset cursor `page_height - margin`
instead. -/
theorem drawWrapped_mem_lb :
    ∀ (lines : List String) (y : ℚ) (b : ℕ),
      ∀ pr ∈ (drawWrapped y b lines).1, reportMargin + 20 ≤ pr.1
  | [], y, b, pr, hpr => by simp [drawWrapped] at hpr
  | line :: rest, y, b, pr, hpr => by
    rw [drawWrapped_cons] at hpr
    by_cases h : y < reportMargin + 20
    · rw [if_pos h] at hpr
      rcases List.mem_cons.mp hpr with rfl | hpr
      · show reportMargin + 20 ≤ pageHeight - reportMargin
        norm_num [reportMargin, pageHeight]
      · exact drawWrapped_mem_lb rest _ _ pr hpr
    · rw [if_neg h] at hpr
      rcases List.mem_cons.mp hpr with rfl | hpr
      · exact le_of_not_lt h
      · exact drawWrapped_mem_lb rest _ _ pr hpr

theorem drawWrapped_breaks_le :
    ∀ (lines : List String) (y : ℚ) (b : ℕ), b ≤ (drawWrapped y b lines).2
  | [], _, _ => le_refl _
  | line :: rest, y, b => by
    rw [drawWrapped_cons]
    by_cases h : y < reportMargin + 20
    · rw [if_pos h]
      exact le_trans (Nat.le_succ b) (drawWrapped_breaks_le rest _ _)
    · rw [if_neg h]
      exact drawWrapped_breaks_le rest _ _

/-- If the loop never breaks the page, the cursor stayed at or above the
threshold throughout: it was at least `margin + 20` before every line. -/
theorem drawWrapped_no_break :
    ∀ (lines : List String) (y : ℚ) (b : ℕ),
      (drawWrapped y b lines).2 = b →
      ∀ i : ℕ, i < lines.length → reportMargin + 20 ≤ y - 14 * i
  | [], y, b, _, i, hi => by simp at hi
  | line :: rest, y, b, h, i, hi => by
    rw [drawWrapped_cons] at h
    by_cases hy : y < reportMargin + 20
    · rw [if_pos hy] at h
      have hle := drawWrapped_breaks_le rest (pageHeight - reportMargin - 14) (b + 1)
      omega
    · rw [if_neg hy] at h
      cases i with
      | zero => simpa using le_of_not_lt hy
      | succ n =>
        have := drawWrapped_no_break rest (y - 14) b h n (by simpa using hi)
        push_cast
        push_cast at this
        linarith

/-! ### Shared concrete evaluation -/

theorem stubFake_analyze : analyze_text stubFake "Hi.".data = .ok stubA := by
  have hs : split_sentences "Hi.".data = ["Hi.".data] := by decide
  have hp : paragraphs_from_text "Hi.".data = ["Hi.".data] := by decide
  simp [analyze_text, analyze_sentences, stubFake, pipeBatch, hs, hp, stubA]
  norm_num

/-! ### The claims -/

/-- C1, counterexample: `analyze_text` does not reject empty input.  On the
empty text a succeeding classifier yields a normal result (no failure of any
kind), and a failing classifier's error surfaces — so a classification call
is made. -/
theorem spec_c1_counterexample :
    analyze_text stubReal [] =
      .ok { label := "Real", score := 10, originality := 90, text := [],
            sentences := [], paragraphs := [] } ∧
    analyze_text stubDown [] = .error "model unavailable" := by
  constructor
  · simp [analyze_text, analyze_sentences, stubReal,
      show split_sentences [] = [] from rfl,
      show paragraphs_from_text [] = [] from rfl]
    norm_num
  · simp [analyze_text, stubDown]

/-- C1 (amended): `analyze_text` performs no empty-input check.  For every
text whose trimmed form is empty it still makes the document-level
classification call — the classifier's failure propagates, and on success a
normal result is returned (with empty sentence and paragraph lists, since a
whitespace-only text has no fragments); no `EmptyInput` failure exists. -/
theorem spec_c1_amended (clf : Classifier) (t : List Char)
    (h : pyStrip t = []) :
    (∀ e, clf t = .error e → analyze_text clf t = .error e) ∧
    (∀ r, clf t = .ok r → analyze_text clf t =
      .ok { label := r.label, score := r.score * 100,
            originality := 100 - r.score * 100, text := t,
            sentences := [], paragraphs := [] }) := by
  have hws : ∀ c ∈ t, isWSChar c = true := pyStrip_eq_nil_iff.mp h
  have hs : split_sentences t = [] := split_sentences_allWS hws
  have hp : paragraphs_from_text t = [] := paragraphs_allWS hws
  refine ⟨fun e he => analyze_text_error_doc he, fun r hr => ?_⟩
  unfold analyze_text
  rw [hr]
  unfold analyze_sentences
  simp [hs, hp]

/-- Witness for C1 at the whitespace-only text `" \n"`. -/
theorem spec_c1_witness :
    analyze_text stubReal [' ', '\n'] =
      .ok { label := "Real", score := 1 / 10 * 100,
            originality := 100 - 1 / 10 * 100, text := [' ', '\n'],
            sentences := [], paragraphs := [] } :=
  (spec_c1_amended stubReal [' ', '\n'] (by decide)).2 _ rfl

/-- C2, counterexample: the label of an analysis result is the capability's
native label string, not its image in the `{Human, AI}` enum: under a stub
returning label `Fake` the result's label is `Fake`, which differs from the
mapped value `AI` (and from `Human`). -/
theorem spec_c2_counterexample :
    (analyze_text stubFake "Hi.".data).map (fun a => a.label) = .ok "Fake" ∧
    specLabelMap "Fake" = "AI" ∧
    ("Fake" : String) ≠ "AI" ∧ ("Fake" : String) ≠ "Human" := by
  refine ⟨?_, by decide, by decide, by decide⟩
  rw [stubFake_analyze]
  rfl

/-- C2 (amended): for every successful analysis (document-level and batched
sentence-level) the label in each returned result is the capability's native
label string passed through unchanged, and the score is the capability's
confidence in `[0,1]` multiplied by 100. -/
theorem spec_c2_amended (clf : Classifier) (t : List Char) (a : AnalysisResult)
    (h : analyze_text clf t = .ok a) :
    (∃ r, clf t = .ok r ∧ a.label = r.label ∧ a.score = r.score * 100) ∧
    (∀ sr ∈ a.sentences, ∃ r, clf sr.sentence = .ok r ∧ sr.label = r.label ∧
      sr.score = r.score * 100) := by
  obtain ⟨r, hr, hlab, hsc, -, -, hsents, -⟩ := analyze_text_ok h
  obtain ⟨-, hmem⟩ := analyze_sentences_ok hsents
  refine ⟨⟨r, hr, hlab, hsc⟩, fun sr hsr => ?_⟩
  obtain ⟨rr, h1, h2, h3, -⟩ := hmem sr hsr
  exact ⟨rr, h1, h2, h3⟩

/-- Witness for C2 at the stub analysis of `Hi.`. -/
theorem spec_c2_witness :
    (∃ r, stubFake "Hi.".data = .ok r ∧ stubA.label = r.label ∧
      stubA.score = r.score * 100) ∧
    (∀ sr ∈ stubA.sentences, ∃ r, stubFake sr.sentence = .ok r ∧
      sr.label = r.label ∧ sr.score = r.score * 100) :=
  spec_c2_amended stubFake "Hi.".data stubA stubFake_analyze

/-- C3, counterexample: the console summary does not select the tier purely
by the score thresholds.  At label `Real` and score `99.5` the threshold-first
ordering (the web template's, and the one the claim states) selects the top
tier, but the console summary prints the human-written statement because it
branches on the label first. -/
theorem spec_c3_counterexample :
    (detect_summary "Real" (199 / 2)).tier ≠ template_tier "Real" (199 / 2) ∧
    (detect_summary "Real" (199 / 2)).tier = Tier.human ∧
    template_tier "Real" (199 / 2) = Tier.top := by
  have h1 : (detect_summary "Real" (199 / 2)).tier = Tier.human := by
    simp [detect_summary, show ("Real" : String) ≠ "Fake" by decide]
  have h2 : template_tier "Real" (199 / 2) = Tier.top := by
    norm_num [template_tier]
  exact ⟨by rw [h1, h2]; decide, h1, h2⟩

/-- C3 (amended): the console summary branches on `label == 'Fake'` first:
for label `Fake` it selects the tier by the thresholds (`> 98` top, `> 90`
mid, else basic) — agreeing there with the web template's threshold-first
ordering — and for any other label it prints the human-written statement
regardless of score.  The confidence it prints is the score rounded to two
decimal places (an integer number of hundredths within `1/200` of the score),
and for a stub classifier returning `{label: Fake, score: 0.995}` both
renderers select the `> 98` tier. -/
theorem spec_c3_amended :
    (∀ s : ℚ, (detect_summary "Fake" s).tier = template_tier "Fake" s) ∧
    (∀ (l : String) (s : ℚ), l ≠ "Fake" →
      (detect_summary l s).tier = Tier.human) ∧
    (∀ (l : String) (s : ℚ),
      (detect_summary l s).confidence = printed_confidence s) ∧
    (∀ s : ℚ, |printed_confidence s - s| ≤ 1 / 200 ∧
      printed_confidence s * 100 = ((round (s * 100) : ℤ) : ℚ)) ∧
    ((detect_summary "Fake" (995 / 1000 * 100)).tier = Tier.top ∧
      template_tier "Fake" (995 / 1000 * 100) = Tier.top) := by
  refine ⟨?_, ?_, ?_, ?_, ?_, ?_⟩
  · intro s
    by_cases h98 : s > 98
    · simp [detect_summary, template_tier, h98]
    · by_cases h90 : s > 90 <;> simp [detect_summary, template_tier, h98, h90]
  · intro l s hl
    simp [detect_summary, hl]
  · intro l s
    by_cases hl : l = "Fake" <;> simp [detect_summary, hl]
  · intro s
    constructor
    · have h := abs_sub_round (s * 100)
      unfold printed_confidence
      rw [show ((round (s * 100) : ℤ) : ℚ) / 100 - s =
        (((round (s * 100) : ℤ) : ℚ) - s * 100) / 100 by ring]
      rw [abs_div]
      norm_num
      rw [abs_sub_comm]
      linarith [h]
    · unfold printed_confidence
      field_simp
  · norm_num [detect_summary]
  · norm_num [template_tier]

/-- Witness for C3 at concrete labels and scores. -/
theorem spec_c3_witness :
    (detect_summary "Fake" 95).tier = template_tier "Fake" 95 ∧
    (detect_summary "roberta" 95).tier = Tier.human ∧
    (detect_summary "Fake" (199 / 2)).confidence = printed_confidence (199 / 2) ∧
    |printed_confidence (199 / 2) - 199 / 2| ≤ 1 / 200 ∧
    (detect_summary "Fake" (995 / 1000 * 100)).tier = Tier.top :=
  ⟨spec_c3_amended.1 95,
   spec_c3_amended.2.1 "roberta" 95 (by decide),
   spec_c3_amended.2.2.1 "Fake" (199 / 2),
   (spec_c3_amended.2.2.2.1 (199 / 2)).1,
   spec_c3_amended.2.2.2.2.1⟩

/-- C4: for every non-empty trimmed input text, the analysis result satisfies
`originality = 100 - score` at the document level, and every element of its
sentences sequence satisfies the same identity. -/
theorem spec_c4_originality (clf : Classifier) (t : List Char)
    (a : AnalysisResult) (_hne : pyStrip t ≠ [])
    (h : analyze_text clf t = .ok a) :
    a.originality = 100 - a.score ∧
    ∀ sr ∈ a.sentences, sr.originality = 100 - sr.score := by
  obtain ⟨r, -, -, hsc, horig, -, hsents, -⟩ := analyze_text_ok h
  obtain ⟨-, hmem⟩ := analyze_sentences_ok hsents
  refine ⟨by rw [horig, hsc], fun sr hsr => ?_⟩
  obtain ⟨rr, -, -, h3, h4⟩ := hmem sr hsr
  rw [h4, h3]

/-- Witness for C4 at the stub analysis of `Hi.`. -/
theorem spec_c4_witness :
    stubA.originality = 100 - stubA.score ∧
    ∀ sr ∈ stubA.sentences, sr.originality = 100 - sr.score :=
  spec_c4_originality stubFake "Hi.".data stubA (by decide) stubFake_analyze

/-- C5: the sentences sequence of a successful analysis carries exactly the
non-empty fragments of `split_sentences`, in order, in its `sentence` fields;
and when `split_sentences` is empty, `analyze_sentences` returns the empty
list without error, for any classifier (no classification call is made). -/
theorem spec_c5_sentences :
    (∀ (clf : Classifier) (t : List Char) (a : AnalysisResult),
      analyze_text clf t = .ok a →
      a.sentences.map (fun sr => sr.sentence) = split_sentences t) ∧
    (∀ (clf : Classifier) (t : List Char), split_sentences t = [] →
      analyze_sentences clf t = .ok []) := by
  constructor
  · intro clf t a h
    obtain ⟨r, -, -, -, -, -, hsents, -⟩ := analyze_text_ok h
    exact (analyze_sentences_ok hsents).1
  · intro clf t h
    unfold analyze_sentences
    simp [h]

/-- Witness for C5: the stub analysis of `Hi.`, and a whitespace-only text
under a classifier that always fails (still no error). -/
theorem spec_c5_witness :
    stubA.sentences.map (fun sr => sr.sentence) = split_sentences "Hi.".data ∧
    analyze_sentences stubDown "   ".data = .ok [] :=
  ⟨spec_c5_sentences.1 stubFake "Hi.".data stubA stubFake_analyze,
   spec_c5_sentences.2 stubDown "   ".data (by decide)⟩

/-- C6: `split_sentences` splits exactly at each run of whitespace
immediately following a terminal punctuation mark (`.`, `!`, `?`), trims each
fragment and drops empty fragments; text containing no sentence-ending
punctuation yields the single trimmed whole text, and empty or
whitespace-only input yields the empty sequence. -/
theorem spec_c6_split_sentences :
    (∀ (a : List Char) (c : Char) (ws b : List Char),
      hasSentBoundary (a ++ [c]) = false → isTermChar c = true →
      ws ≠ [] → (∀ w ∈ ws, isWSChar w = true) → headWS b = false →
      split_sentences ((a ++ [c]) ++ ws ++ b) =
        pyStrip (a ++ [c]) :: split_sentences b) ∧
    (∀ t : List Char, (∀ ch ∈ t, isTermChar ch = false) → pyStrip t ≠ [] →
      split_sentences t = [pyStrip t]) ∧
    (∀ t : List Char, (∀ ch ∈ t, isWSChar ch = true) →
      split_sentences t = []) :=
  ⟨fun _ _ _ _ h1 h2 h3 h4 h5 => split_sentences_peel h1 h2 h3 h4 h5,
   fun _ h1 h2 => split_sentences_no_term h1 h2,
   fun _ h => split_sentences_allWS h⟩

/-- Witness for C6 at `Hi. Bye!`, `hello there` and a whitespace text. -/
theorem spec_c6_witness :
    split_sentences "Hi. Bye!".data =
      pyStrip "Hi.".data :: split_sentences "Bye!".data ∧
    split_sentences "hello there".data = [pyStrip "hello there".data] ∧
    split_sentences " \t ".data = [] := by
  refine ⟨?_, ?_, ?_⟩
  · have h := spec_c6_split_sentences.1 ['H', 'i'] '.' [' '] "Bye!".data
      (by decide) (by decide) (by decide) (by decide) (by decide)
    have e1 : (['H', 'i'] ++ ['.']) ++ [' '] ++ "Bye!".data = "Hi. Bye!".data := by decide
    have e2 : ['H', 'i'] ++ ['.'] = "Hi.".data := by decide
    rw [e1, e2] at h
    exact h
  · exact spec_c6_split_sentences.2.1 "hello there".data (by decide) (by decide)
  · exact spec_c6_split_sentences.2.2 " \t ".data (by decide)

/-- C7: every element of the paragraphs list is trimmed, non-empty, and
contains no blank-line separator; and a text of two non-blank paragraphs
around one blank line yields exactly the two trimmed paragraphs. -/
theorem spec_c7_paragraphs :
    (∀ t p : List Char, p ∈ paragraphs_from_text t →
      pyStrip p = p ∧ p ≠ [] ∧ hasNN p = false) ∧
    (∀ p1 p2 : List Char, hasNN p1 = false → hasNN p2 = false →
      p1.getLast? ≠ some '\n' → pyStrip p1 ≠ [] → pyStrip p2 ≠ [] →
      paragraphs_from_text (p1 ++ '\n' :: '\n' :: p2) =
        [pyStrip p1, pyStrip p2]) :=
  ⟨fun _ _ hp => paragraphs_mem hp,
   fun _ _ h1 h2 h3 h4 h5 => paragraphs_two h1 h2 h3 h4 h5⟩

/-- Witness for C7 at the two-paragraph text `one\n\ntwo`. -/
theorem spec_c7_witness :
    (pyStrip "one".data = "one".data ∧ "one".data ≠ [] ∧
      hasNN "one".data = false) ∧
    paragraphs_from_text ("one".data ++ '\n' :: '\n' :: "two".data) =
      [pyStrip "one".data, pyStrip "two".data] :=
  ⟨spec_c7_paragraphs.1 "one\n\ntwo".data "one".data (by decide),
   spec_c7_paragraphs.2 "one".data "two".data (by decide) (by decide)
     (by decide) (by decide) (by decide)⟩

/-- C8: the paginated report never draws a wrapped text line below the fixed
bottom margin — every drawn line sits at or above `margin + 20`, the page
break resetting the cursor to the page top before drawing — and a text whose
wrapped line count exceeds the first page's line budget produces a report of
more than one page. -/
theorem spec_c8_pagination :
    (∀ lines : List String, ∀ pr ∈ pdfDrawn lines,
      reportMargin + 20 ≤ pr.1) ∧
    (∀ lines : List String, firstPageLineBudget < lines.length →
      1 < pdfPages lines) := by
  constructor
  · intro lines pr hpr
    exact drawWrapped_mem_lb lines textStartY 0 pr hpr
  · intro lines h
    unfold pdfPages
    by_contra hle
    push_neg at hle
    have hb : (drawWrapped textStartY 0 lines).2 = 0 := by omega
    have h47 := drawWrapped_no_break lines textStartY 0 hb 47 (by
      unfold firstPageLineBudget at h
      omega)
    norm_num [textStartY, pageHeight, reportMargin] at h47

/-- Witness for C8: one line is drawn at the start cursor (above the margin),
and 48 wrapped lines need a second page. -/
theorem spec_c8_witness :
    reportMargin + 20 ≤ textStartY ∧
    1 < pdfPages (List.replicate 48 "line") := by
  refine ⟨spec_c8_pagination.1 ["line"] (textStartY, "line") ?_,
    spec_c8_pagination.2 (List.replicate 48 "line")
      (by norm_num [firstPageLineBudget])⟩
  norm_num [pdfDrawn, drawWrapped, textStartY, pageHeight, reportMargin]

/-- C9: a classification failure — the capability failing to load or erroring
mid-call, modelled as the error outcome of the classifier — surfaces to the
caller of `analyze_text` as that same distinct error, whether it hits the
document-level call or the batched sentence call; and a result is produced
only when every classification call succeeded, so no default label or score
is ever substituted for a failure. -/
theorem spec_c9_classification_unavailable :
    (∀ (clf : Classifier) (t : List Char) (e : String),
      clf t = .error e → analyze_text clf t = .error e) ∧
    (∀ (clf : Classifier) (t : List Char) (e : String) (r : LabelScore),
      clf t = .ok r → pipeBatch clf (split_sentences t) = .error e →
      analyze_text clf t = .error e) ∧
    (∀ (clf : Classifier) (t : List Char) (a : AnalysisResult),
      analyze_text clf t = .ok a →
      (∃ r, clf t = .ok r) ∧ ∀ s ∈ split_sentences t, ∃ r, clf s = .ok r) := by
  refine ⟨fun clf t e h => analyze_text_error_doc h,
    fun clf t e r hr h => analyze_text_error_batch hr h, ?_⟩
  intro clf t a h
  obtain ⟨r, hr, -, -, -, -, hsents, -⟩ := analyze_text_ok h
  refine ⟨⟨r, hr⟩, ?_⟩
  unfold analyze_sentences at hsents
  by_cases hemp : split_sentences t = []
  · intro s hs
    rw [hemp] at hs
    simp at hs
  · rw [if_neg hemp] at hsents
    cases hpb : pipeBatch clf (split_sentences t) with
    | error e => rw [hpb] at hsents; simp at hsents
    | ok results => exact fun s hs => pipeBatch_ok_mem hpb s hs

/-- Witness for C9: a loading failure on `Hi.`, a mid-batch failure on
`Hi. Bye!`, and the success case of the stub analysis. -/
theorem spec_c9_witness :
    analyze_text stubDown "Hi.".data = .error "model unavailable" ∧
    analyze_text stubFlaky "Hi. Bye!".data = .error "GPU out of memory" ∧
    ((∃ r, stubFake "Hi.".data = .ok r) ∧
      ∀ s ∈ split_sentences "Hi.".data, ∃ r, stubFake s = .ok r) := by
  refine ⟨spec_c9_classification_unavailable.1 stubDown "Hi.".data
      "model unavailable" rfl,
    spec_c9_classification_unavailable.2.1 stubFlaky "Hi. Bye!".data
      "GPU out of memory" { label := "Fake", score := 1 / 2 } ?_ ?_,
    spec_c9_classification_unavailable.2.2 stubFake "Hi.".data stubA
      stubFake_analyze⟩
  · simp [stubFlaky, show "Hi. Bye!".data ≠ "Bye!".data by decide]
  · have hs : split_sentences "Hi. Bye!".data = ["Hi.".data, "Bye!".data] := by
      decide
    rw [hs]
    simp [pipeBatch, stubFlaky, show "Hi.".data ≠ "Bye!".data by decide]

/-- C10: the Word-document text extractor joins the non-blank paragraph texts
with a single line break, so when the individual paragraph texts contain no
line breaks the extracted text contains no blank line: the paragraph splitter
then yields at most one paragraph — exactly one when the extracted text is
non-empty — never one entry per document paragraph (two paragraphs `Hello`
and `World` yield the single paragraph `Hello\nWorld`). -/
theorem spec_c10_docx_single_paragraph :
    (∀ paras : List (List Char), (∀ p ∈ paras, ('\n' : Char) ∉ p) →
      (paragraphs_from_text (text_from_document paras)).length ≤ 1 ∧
      (text_from_document paras ≠ [] →
        (paragraphs_from_text (text_from_document paras)).length = 1)) ∧
    (text_from_document ["Hello".data, "World".data] = "Hello\nWorld".data ∧
      paragraphs_from_text "Hello\nWorld".data = ["Hello\nWorld".data]) := by
  constructor
  · intro paras hnl
    have hmemkept : ∀ p ∈ paras.filter (fun p => pyStrip p ≠ []),
        p ∈ paras ∧ pyStrip p ≠ [] := by
      intro p hp
      have hmf := List.mem_filter.mp hp
      exact ⟨hmf.1, by simpa using hmf.2⟩
    have hnn : hasNN (joinNL (paras.filter (fun p => pyStrip p ≠ []))) = false := by
      apply hasNN_joinNL
      · exact fun p hp => hnl p (hmemkept p hp).1
      · intro p hp h0
        exact (hmemkept p hp).2 (by rw [h0]; rfl)
    have htd : text_from_document paras =
        joinNL (paras.filter (fun p => pyStrip p ≠ [])) := rfl
    rw [htd, paragraphs_noNN hnn]
    constructor
    · by_cases hs : pyStrip (joinNL (paras.filter (fun p => pyStrip p ≠ []))) = []
      · rw [if_pos hs]
        norm_num
      · rw [if_neg hs]
        norm_num
    · intro hne
      have hkne : paras.filter (fun p => pyStrip p ≠ []) ≠ [] := by
        intro h0
        rw [h0] at hne
        exact hne rfl
      obtain ⟨p, rest, hpr⟩ := List.exists_cons_of_ne_nil hkne
      obtain ⟨u, hu⟩ := joinNL_decomp p rest
      have hpne : pyStrip p ≠ [] :=
        (hmemkept p (by rw [hpr]; exact List.mem_cons_self _ _)).2
      have hnonws : ∃ c ∈ p, isWSChar c = false := by
        by_contra hall
        push_neg at hall
        refine hpne (pyStrip_eq_nil_iff.mpr (fun c hc => ?_))
        have := hall c hc
        simpa using this
      obtain ⟨c, hcp, hcw⟩ := hnonws
      have hcj : c ∈ joinNL (paras.filter (fun p => pyStrip p ≠ [])) := by
        rw [hpr, hu, List.mem_append]
        exact Or.inl hcp
      rw [if_neg (pyStrip_ne_nil hcj hcw)]
      rfl
  · exact ⟨by decide, by decide⟩

/-- Witness for C10 at the two-paragraph document `Hello`, `World`. -/
theorem spec_c10_witness :
    (paragraphs_from_text
      (text_from_document ["Hello".data, "World".data])).length ≤ 1 ∧
    (text_from_document ["Hello".data, "World".data] ≠ [] →
      (paragraphs_from_text
        (text_from_document ["Hello".data, "World".data])).length = 1) :=
  spec_c10_docx_single_paragraph.1 ["Hello".data, "World".data] (by decide)
